import Mathlib

/-!
# Verification of the LMDB-backed MinHash LSH index (`datasketch_lmdb`)

A shallow embedding of `src/datasketch_lmdb/__init__.py` (class
`LMDBMinHashLSH`).  The LMDB environment is modelled as pure data: each
named collection ("database") is an association list, and a transaction is
the functional update performed by one public operation.  The transactional
store's all-or-nothing contract (an exception inside a write transaction
aborts it, so a rejected operation leaves every collection untouched) is
reflected by returning `Except`: an error carries no successor state.

Keys and band digests are opaque encodable values; since the msgpack codec
is round-trip exact (injective), both are modelled as `Nat`.  The band
digest function `_H` of the external `datasketch` parent class is an
arbitrary parameter `Hf` of the configuration.
-/

namespace DatasketchLMDB

/-- Inserted item identifier (`key`, msgpack-encodable, modelled abstractly). -/
abbrev Key := Nat

/-- A band digest (`self._H(...)`, a fixed-width byte string, modelled abstractly). -/
abbrev Digest := Nat

/-- `minhash.hashvalues`: ordered sequence of unsigned integers. -/
abbrev Signature := List Nat

/-- One LMDB named database: a finite map, modelled as an association list. -/
abbrev Db (K V : Type) := List (K × V)

/-- `txn.get(k, db=db)`. -/
def dbGet {K V : Type} [DecidableEq K] : Db K V → K → Option V
  | [], _ => none
  | (k', v) :: rest, k => if k' = k then some v else dbGet rest k

/-- `txn.put(k, v, overwrite=True, db=db)`: replace the entry if present, else append. -/
def dbPut {K V : Type} [DecidableEq K] : Db K V → K → V → Db K V
  | [], k, v => [(k, v)]
  | (k', v') :: rest, k, v =>
      if k' = k then (k, v) :: rest else (k', v') :: dbPut rest k v

/-- `txn.delete(k, db=db)` / `txn.pop(k, db=db)`: drop the entry for `k`. -/
def dbDelete {K V : Type} [DecidableEq K] : Db K V → K → Db K V
  | [], _ => []
  | (k', v') :: rest, k =>
      if k' = k then dbDelete rest k else (k', v') :: dbDelete rest k

/-- Construction-time configuration of `LMDBMinHashLSH`: `h` (signature
length `num_perm`), `hashranges` (the `b` band ranges, built by the external
parent constructor), and the band digest function `_H`. -/
structure Config where
  h : Nat
  hashranges : List (Nat × Nat)
  Hf : List Nat → Digest

/-- Number of bands: `self.b` (`len(self.hashranges)`). -/
def Config.b (c : Config) : Nat := c.hashranges.length

/-- The persistent state of one index: the `keys` database
(`Key → List[Digest]`), the `b` hashtable databases
(`Digest → List[Key]`, one per band), and whether `close()` was called. -/
structure State where
  keysDb : Db Key (List Digest)
  bands : List (Db Digest (List Key))
  closed : Bool
deriving DecidableEq

/-- State right after construction: all `b + 1` databases empty, index open. -/
def initState (c : Config) : State :=
  { keysDb := [], bands := List.replicate c.b [], closed := false }

/-- The error taxonomy of the spec.  In the source, the first three are
`ValueError`s, `closedIndex` is the store's closed-environment error
raised by `self.env.begin(...)` after `close()`, and `notImplemented` is
`NotImplementedError`. -/
inductive Err where
  | signatureLengthMismatch
  | duplicateKey
  | unknownKey
  | closedIndex
  | notImplemented
deriving DecidableEq

/-- `minhash.hashvalues[start:end]` (Python slice semantics). -/
def bandSlice (sig : Signature) (r : Nat × Nat) : List Nat :=
  (sig.drop r.1).take (r.2 - r.1)

/-- `[self._H(minhash.hashvalues[start:end]) for start, end in self.hashranges]`. -/
def computeHashes (c : Config) (sig : Signature) : List Digest :=
  c.hashranges.map (fun r => c.Hf (bandSlice sig r))

/-- Pointwise update of the band databases, mirroring
`zip(hashes, self.hashtable_dbs)`: band `i` is updated with digest
`hashes[i]`; if one list is shorter the extra elements are ignored
(extra databases are left unchanged), exactly as Python `zip` truncates. -/
def updateBands (f : Digest → Db Digest (List Key) → Db Digest (List Key)) :
    List Digest → List (Db Digest (List Key)) → List (Db Digest (List Key))
  | [], dbs => dbs
  | _ :: _, [] => []
  | d :: ds, db :: dbs => f d db :: updateBands f ds dbs

/-- Body of the insert loop for one band:
`keys = unpackb(txn.get(H)) if present else []; keys.append(key); txn.put(H, packb(keys))`. -/
def insertBand (key : Key) (H : Digest) (db : Db Digest (List Key)) :
    Db Digest (List Key) :=
  dbPut db H (((dbGet db H).getD []) ++ [key])

/-- `LMDBMinHashLSH.insert(key, minhash)`.  Validates the signature length
before any store access, then inside one write transaction rejects a
duplicate key and otherwise writes the primary record and appends the key
to each band's posting list. -/
def insert (c : Config) (s : State) (key : Key) (sig : Signature) :
    Except Err State :=
  if sig.length ≠ c.h then .error .signatureLengthMismatch
  else if s.closed then .error .closedIndex
  else if (dbGet s.keysDb key).isSome then .error .duplicateKey
  else
    let hashes := computeHashes c sig
    .ok { keysDb := dbPut s.keysDb key hashes
          bands := updateBands (insertBand key) hashes s.bands
          closed := s.closed }

/-- Candidate accumulation of the query loop over `zip(self.hashranges,
self.hashtable_dbs)`: each band's posting list (if present) is added to
the candidate set. -/
def queryBands (c : Config) (sig : Signature) :
    List (Nat × Nat) → List (Db Digest (List Key)) → Finset Key
  | [], _ => ∅
  | _ :: _, [] => ∅
  | r :: rs, db :: dbs =>
      (match dbGet db (c.Hf (bandSlice sig r)) with
       | some ks => ks.toFinset
       | none => ∅) ∪ queryBands c sig rs dbs

/-- `LMDBMinHashLSH.query(minhash)`: validate length, then within one read
transaction union the posting lists of all bands.  Returns a set and never
a new state: the read transaction mutates nothing. -/
def query (c : Config) (s : State) (sig : Signature) : Except Err (Finset Key) :=
  if sig.length ≠ c.h then .error .signatureLengthMismatch
  else if s.closed then .error .closedIndex
  else .ok (queryBands c sig c.hashranges s.bands)

/-- Body of the remove loop for one band: if the posting list exists and
contains the key, remove its first occurrence (`list.remove`); write the
shrunk list back if non-empty, delete the entry outright if empty; a
missing posting list or a posting list without the key is skipped
(`except ValueError: pass`). -/
def removeBand (key : Key) (H : Digest) (db : Db Digest (List Key)) :
    Db Digest (List Key) :=
  match dbGet db H with
  | none => db
  | some ks =>
      if key ∈ ks then
        if ks.erase key = [] then dbDelete db H else dbPut db H (ks.erase key)
      else db

/-- `LMDBMinHashLSH.remove(key)`: inside one write transaction, reject an
unknown key, otherwise shrink each band's posting list and finally pop the
primary record. -/
def remove (_c : Config) (s : State) (key : Key) : Except Err State :=
  if s.closed then .error .closedIndex
  else
    match dbGet s.keysDb key with
    | none => .error .unknownKey
    | some hashes =>
        .ok { keysDb := dbDelete s.keysDb key
              bands := updateBands (removeBand key) hashes s.bands
              closed := s.closed }

/-- Modelled from the spec: `contains(key)` (`key in lsh`) is not defined in
`src/` — it is inherited from the external `datasketch.MinHashLSH` parent
class.  Per the spec: a single read transaction, true iff the primary
record for `key` is present; fails with `ClosedIndex` on a closed index;
no mutation (it returns no new state). -/
def contains (s : State) (key : Key) : Except Err Bool :=
  if s.closed then .error .closedIndex
  else .ok (dbGet s.keysDb key).isSome

/-- `LMDBMinHashLSH.is_empty()`: one read transaction; false iff some band
database has `stat().entries > 0`. -/
def is_empty (s : State) : Except Err Bool :=
  if s.closed then .error .closedIndex
  else .ok (s.bands.all (fun db => db.isEmpty))

/-- `LMDBMinHashLSH.close()`: release the environment handle; terminal. -/
def close (s : State) : State := { s with closed := true }

/-- Result state of an insert, with the store's abort-on-error contract
made explicit: a rejected insert leaves the persisted state as it was. -/
def execInsert (c : Config) (s : State) (key : Key) (sig : Signature) : State :=
  match insert c s key sig with
  | .ok t => t
  | .error _ => s

/-- Result state of a remove, with the store's abort-on-error contract
made explicit: a rejected remove leaves the persisted state as it was. -/
def execRemove (c : Config) (s : State) (key : Key) : State :=
  match remove c s key with
  | .ok t => t
  | .error _ => s

/-- States reachable from a fresh index by completed public operations
(`query`, `contains` and `is_empty` return no state; failed operations
abort their transaction and change nothing). -/
inductive Reachable (c : Config) : State → Prop where
  | init : Reachable c (initState c)
  | insert (s s' : State) (k : Key) (sig : Signature) :
      Reachable c s → insert c s k sig = .ok s' → Reachable c s'
  | remove (s s' : State) (k : Key) :
      Reachable c s → remove c s k = .ok s' → Reachable c s'
  | close (s : State) : Reachable c s → Reachable c (close s)

/-! ## Association-list database lemmas -/

theorem dbGet_dbPut_self {K V : Type} [DecidableEq K] (db : Db K V) (k : K) (v : V) :
    dbGet (dbPut db k v) k = some v := by
  induction db with
  | nil => simp [dbPut, dbGet]
  | cons e rest ih =>
    obtain ⟨k', v'⟩ := e
    by_cases h : k' = k
    · simp [dbPut, h, dbGet]
    · simp [dbPut, h, dbGet, ih]

theorem dbGet_dbPut_ne {K V : Type} [DecidableEq K] (db : Db K V) (k k' : K) (v : V)
    (h : k' ≠ k) : dbGet (dbPut db k v) k' = dbGet db k' := by
  induction db with
  | nil => simp [dbPut, dbGet, Ne.symm h]
  | cons e rest ih =>
    obtain ⟨k0, v0⟩ := e
    by_cases h0 : k0 = k
    · subst h0
      simp [dbPut, dbGet, Ne.symm h]
    · simp [dbPut, h0, dbGet, ih]

theorem dbGet_dbDelete_self {K V : Type} [DecidableEq K] (db : Db K V) (k : K) :
    dbGet (dbDelete db k) k = none := by
  induction db with
  | nil => simp [dbDelete, dbGet]
  | cons e rest ih =>
    obtain ⟨k0, v0⟩ := e
    by_cases h0 : k0 = k
    · simp [dbDelete, h0, ih]
    · simp [dbDelete, h0, dbGet, ih]

theorem dbGet_dbDelete_ne {K V : Type} [DecidableEq K] (db : Db K V) (k k' : K)
    (h : k' ≠ k) : dbGet (dbDelete db k) k' = dbGet db k' := by
  induction db with
  | nil => simp [dbDelete]
  | cons e rest ih =>
    obtain ⟨k0, v0⟩ := e
    by_cases h0 : k0 = k
    · subst h0
      simp [dbDelete, dbGet, Ne.symm h, ih]
    · simp [dbDelete, h0, dbGet, ih]

theorem dbGet_eq_none_iff {K V : Type} [DecidableEq K] (db : Db K V) (k : K) :
    dbGet db k = none ↔ ∀ e ∈ db, e.1 ≠ k := by
  induction db with
  | nil => simp [dbGet]
  | cons e rest ih =>
    obtain ⟨k0, v0⟩ := e
    by_cases h0 : k0 = k
    · simp [dbGet, h0]
    · simp [dbGet, h0, ih]

theorem dbGet_some_mem {K V : Type} [DecidableEq K] {db : Db K V} {k : K} {v : V}
    (h : dbGet db k = some v) : (k, v) ∈ db := by
  induction db with
  | nil => simp [dbGet] at h
  | cons e rest ih =>
    obtain ⟨k0, v0⟩ := e
    by_cases h0 : k0 = k
    · subst h0
      simp [dbGet] at h
      simp [h]
    · simp [dbGet, h0] at h
      exact List.mem_cons_of_mem _ (ih h)

theorem dbGet_of_mem_nodup {K V : Type} [DecidableEq K] {db : Db K V} {k : K} {v : V}
    (hnd : (db.map Prod.fst).Nodup) (hmem : (k, v) ∈ db) : dbGet db k = some v := by
  induction db with
  | nil => simp at hmem
  | cons e rest ih =>
    obtain ⟨k0, v0⟩ := e
    simp only [List.map_cons, List.nodup_cons] at hnd
    rcases List.mem_cons.mp hmem with h | h
    · injection h with h1 h2
      subst h1
      subst h2
      simp [dbGet]
    · have hk0 : k0 ≠ k := by
        intro he
        exact hnd.1 (he ▸ List.mem_map_of_mem Prod.fst h)
      simp [dbGet, hk0, ih hnd.2 h]

theorem mem_dbPut_nodup {K V : Type} [DecidableEq K] {db : Db K V} {k : K} {v : V}
    {e : K × V} (hnd : (db.map Prod.fst).Nodup) (hmem : e ∈ dbPut db k v) :
    e = (k, v) ∨ (e ∈ db ∧ e.1 ≠ k) := by
  induction db with
  | nil =>
    simp [dbPut] at hmem
    exact Or.inl hmem
  | cons e0 rest ih =>
    obtain ⟨k0, v0⟩ := e0
    simp only [List.map_cons, List.nodup_cons] at hnd
    by_cases h0 : k0 = k
    · subst h0
      simp only [dbPut, if_pos rfl] at hmem
      rcases List.mem_cons.mp hmem with h | h
      · exact Or.inl h
      · refine Or.inr ⟨List.mem_cons_of_mem _ h, ?_⟩
        intro he
        exact hnd.1 (he ▸ List.mem_map_of_mem Prod.fst h)
    · simp only [dbPut, if_neg h0] at hmem
      rcases List.mem_cons.mp hmem with h | h
      · exact Or.inr ⟨h ▸ List.mem_cons_self _ _, h ▸ h0⟩
      · rcases ih hnd.2 h with h2 | h2
        · exact Or.inl h2
        · exact Or.inr ⟨List.mem_cons_of_mem _ h2.1, h2.2⟩

theorem mem_dbDelete {K V : Type} [DecidableEq K] {db : Db K V} {k : K} {e : K × V}
    (hmem : e ∈ dbDelete db k) : e ∈ db ∧ e.1 ≠ k := by
  induction db with
  | nil => simp [dbDelete] at hmem
  | cons e0 rest ih =>
    obtain ⟨k0, v0⟩ := e0
    by_cases h0 : k0 = k
    · simp only [dbDelete, if_pos h0] at hmem
      exact ⟨List.mem_cons_of_mem _ (ih hmem).1, (ih hmem).2⟩
    · simp only [dbDelete, if_neg h0] at hmem
      rcases List.mem_cons.mp hmem with h | h
      · exact ⟨h ▸ List.mem_cons_self _ _, h ▸ h0⟩
      · exact ⟨List.mem_cons_of_mem _ (ih h).1, (ih h).2⟩

theorem mem_map_fst_dbPut {K V : Type} [DecidableEq K] {db : Db K V} {k a : K} {v : V}
    (h : a ∈ (dbPut db k v).map Prod.fst) : a ∈ db.map Prod.fst ∨ a = k := by
  induction db with
  | nil =>
    simp [dbPut] at h
    exact Or.inr h
  | cons e0 rest ih =>
    obtain ⟨k0, v0⟩ := e0
    by_cases h0 : k0 = k
    · simp only [dbPut, if_pos h0, List.map_cons, List.mem_cons] at h
      rcases h with h | h
      · exact Or.inr h
      · exact Or.inl (by simp [h])
    · simp only [dbPut, if_neg h0, List.map_cons, List.mem_cons] at h
      rcases h with h | h
      · exact Or.inl (by simp [h])
      · rcases ih h with h2 | h2
        · exact Or.inl (by simp at h2 ⊢; tauto)
        · exact Or.inr h2

theorem nodup_dbPut {K V : Type} [DecidableEq K] {db : Db K V} {k : K} {v : V}
    (hnd : (db.map Prod.fst).Nodup) : ((dbPut db k v).map Prod.fst).Nodup := by
  induction db with
  | nil => simp [dbPut]
  | cons e0 rest ih =>
    obtain ⟨k0, v0⟩ := e0
    simp only [List.map_cons, List.nodup_cons] at hnd
    by_cases h0 : k0 = k
    · subst h0
      have hput : dbPut ((k0, v0) :: rest) k0 v = (k0, v) :: rest := by
        simp [dbPut]
      rw [hput, List.map_cons, List.nodup_cons]
      exact ⟨hnd.1, hnd.2⟩
    · simp only [dbPut, if_neg h0, List.map_cons]
      rw [List.nodup_cons]
      refine ⟨?_, ih hnd.2⟩
      intro hmem
      rcases mem_map_fst_dbPut hmem with h | h
      · exact hnd.1 h
      · exact h0 h

theorem nodup_dbDelete {K V : Type} [DecidableEq K] {db : Db K V} {k : K}
    (hnd : (db.map Prod.fst).Nodup) : ((dbDelete db k).map Prod.fst).Nodup := by
  induction db with
  | nil => simp [dbDelete]
  | cons e0 rest ih =>
    obtain ⟨k0, v0⟩ := e0
    simp only [List.map_cons, List.nodup_cons] at hnd
    by_cases h0 : k0 = k
    · simp only [dbDelete, if_pos h0]
      exact ih hnd.2
    · simp only [dbDelete, if_neg h0, List.map_cons, List.nodup_cons]
      refine ⟨?_, ih hnd.2⟩
      intro hmem
      rcases List.mem_map.mp hmem with ⟨e, he, hfst⟩
      exact hnd.1 (hfst ▸ List.mem_map_of_mem Prod.fst (mem_dbDelete he).1)

/-! ## `updateBands` lemmas -/

theorem length_updateBands (f : Digest → Db Digest (List Key) → Db Digest (List Key)) :
    ∀ (ds : List Digest) (dbs : List (Db Digest (List Key))),
      (updateBands f ds dbs).length = dbs.length
  | [], dbs => by simp [updateBands]
  | _ :: _, [] => by simp [updateBands]
  | d :: ds, db :: dbs => by
      simp [updateBands, length_updateBands f ds dbs]

theorem updateBands_get_some (f : Digest → Db Digest (List Key) → Db Digest (List Key)) :
    ∀ (ds : List Digest) (dbs : List (Db Digest (List Key))) (i : Nat)
      (d : Digest) (db : Db Digest (List Key)),
      ds[i]? = some d → dbs[i]? = some db →
      (updateBands f ds dbs)[i]? = some (f d db)
  | [], _, i, _, _ => by simp
  | _ :: _, [], i, _, _ => by simp
  | d0 :: ds, db0 :: dbs, 0, d, db => by
      intro hd hb
      simp at hd hb
      simp [updateBands, hd, hb]
  | d0 :: ds, db0 :: dbs, i + 1, d, db => by
      intro hd hb
      simp at hd hb
      simpa [updateBands] using updateBands_get_some f ds dbs i d db hd hb

theorem updateBands_get_none (f : Digest → Db Digest (List Key) → Db Digest (List Key)) :
    ∀ (ds : List Digest) (dbs : List (Db Digest (List Key))) (i : Nat),
      ds[i]? = none → (updateBands f ds dbs)[i]? = dbs[i]?
  | [], dbs, i => by simp [updateBands]
  | _ :: _, [], i => by simp [updateBands]
  | d0 :: ds, db0 :: dbs, 0 => by simp
  | d0 :: ds, db0 :: dbs, i + 1 => by
      intro hd
      rw [List.getElem?_cons_succ] at hd
      simpa [updateBands] using updateBands_get_none f ds dbs i hd

theorem updateBands_forall (f : Digest → Db Digest (List Key) → Db Digest (List Key))
    (P Q : Db Digest (List Key) → Prop)
    (hQ : ∀ db, P db → Q db) (hf : ∀ d db, P db → Q (f d db)) :
    ∀ (ds : List Digest) (dbs : List (Db Digest (List Key))),
      (∀ db ∈ dbs, P db) → ∀ db2 ∈ updateBands f ds dbs, Q db2
  | [], dbs => by
      intro hp db2 hmem
      exact hQ db2 (hp db2 (by simpa [updateBands] using hmem))
  | _ :: _, [] => by
      intro hp db2 hmem
      simp [updateBands] at hmem
  | d0 :: ds, db0 :: dbs => by
      intro hp db2 hmem
      simp only [updateBands, List.mem_cons] at hmem
      rcases hmem with h | h
      · exact h ▸ hf d0 db0 (hp db0 (List.mem_cons_self _ _))
      · exact updateBands_forall f P Q hQ hf ds dbs
          (fun db hm => hp db (List.mem_cons_of_mem _ hm)) db2 h

/-! ## Operation elimination lemmas -/

theorem computeHashes_length (c : Config) (sig : Signature) :
    (computeHashes c sig).length = c.b := by
  simp [computeHashes, Config.b]

theorem insert_ok_elim {c : Config} {s s' : State} {k : Key} {sig : Signature}
    (hok : insert c s k sig = .ok s') :
    sig.length = c.h ∧ s.closed = false ∧ dbGet s.keysDb k = none ∧
    s' = { keysDb := dbPut s.keysDb k (computeHashes c sig)
           bands := updateBands (insertBand k) (computeHashes c sig) s.bands
           closed := s.closed } := by
  unfold insert at hok
  split at hok
  · exact absurd hok (by simp)
  · split at hok
    · exact absurd hok (by simp)
    · split at hok
      · exact absurd hok (by simp)
      · rename_i h1 h2 h3
        simp only [Except.ok.injEq] at hok
        exact ⟨not_not.mp h1, by simpa using h2, by simpa using h3, hok.symm⟩

theorem remove_ok_elim {c : Config} {s s' : State} {k : Key}
    (hok : remove c s k = .ok s') :
    s.closed = false ∧ ∃ hs, dbGet s.keysDb k = some hs ∧
    s' = { keysDb := dbDelete s.keysDb k
           bands := updateBands (removeBand k) hs s.bands
           closed := s.closed } := by
  unfold remove at hok
  split at hok
  · exact absurd hok (by simp)
  · rename_i h1
    split at hok
    · exact absurd hok (by simp)
    · rename_i hs hget
      simp only [Except.ok.injEq] at hok
      exact ⟨by simpa using h1, hs, hget, hok.symm⟩

/-! ## The reachable-state invariant -/

/-- Well-formedness of an index state, as maintained by the public
operations: the band list has length `b`; association-list keys are
unique; every primary record has `b` digests and each of them points to a
posting list containing the record's key; every key in any posting list
of band `i` has a primary record whose `i`-th digest is that posting's
digest; no persisted posting list is empty or contains a key twice. -/
structure Inv (c : Config) (s : State) : Prop where
  bandsLen : s.bands.length = c.b
  keysND : (s.keysDb.map Prod.fst).Nodup
  bandKeysND : ∀ db ∈ s.bands, (db.map Prod.fst).Nodup
  recLen : ∀ k hs, dbGet s.keysDb k = some hs → hs.length = c.b
  forward : ∀ (k : Key) (hs : List Digest), dbGet s.keysDb k = some hs →
      ∀ (i : Nat) (d : Digest), hs[i]? = some d →
        ∀ db, s.bands[i]? = some db →
          ∃ ks : List Key, dbGet db d = some ks ∧ k ∈ ks
  backward : ∀ (i : Nat) (db : Db Digest (List Key)), s.bands[i]? = some db →
      ∀ e ∈ db, ∀ k ∈ e.2,
        ∃ hs : List Digest, dbGet s.keysDb k = some hs ∧ hs[i]? = some e.1
  noEmpty : ∀ db ∈ s.bands, ∀ e ∈ db, e.2 ≠ []
  postND : ∀ db ∈ s.bands, ∀ e ∈ db, e.2.Nodup

theorem inv_init (c : Config) : Inv c (initState c) := by
  refine ⟨?_, ?_, ?_, ?_, ?_, ?_, ?_, ?_⟩
  · simp [initState]
  · simp [initState]
  · intro db hdb
    rw [List.eq_of_mem_replicate hdb]
    simp
  · intro k hs hget
    simp [initState, dbGet] at hget
  · intro k hs hget
    simp [initState, dbGet] at hget
  · intro i db hdb e he
    rw [List.eq_of_mem_replicate (List.getElem?_mem hdb)] at he
    simp at he
  · intro db hdb
    rw [List.eq_of_mem_replicate hdb]
    simp
  · intro db hdb
    rw [List.eq_of_mem_replicate hdb]
    simp

/-- A key with no primary record occurs in no posting list (a consequence
of the backward invariant). -/
theorem not_mem_posting_of_no_record {c : Config} {s : State} (hinv : Inv c s)
    {k : Key} (hmiss : dbGet s.keysDb k = none) :
    ∀ db ∈ s.bands, ∀ e ∈ db, k ∉ e.2 := by
  intro db hdb e he hk
  obtain ⟨i, hi⟩ := List.mem_iff_getElem?.mp hdb
  obtain ⟨hs1, hget1, _⟩ := hinv.backward i db hi e he k hk
  rw [hmiss] at hget1
  cases hget1

theorem dbGet_insertBand_self (key : Key) (H : Digest) (db : Db Digest (List Key)) :
    dbGet (insertBand key H db) H = some (((dbGet db H).getD []) ++ [key]) :=
  dbGet_dbPut_self _ _ _

theorem dbGet_insertBand_ne (key : Key) (H d : Digest) (db : Db Digest (List Key))
    (h : d ≠ H) : dbGet (insertBand key H db) d = dbGet db d :=
  dbGet_dbPut_ne _ _ _ _ h

/-- Invariant preservation by a successful `insert`. -/
theorem inv_insert {c : Config} {s s' : State} {k : Key} {sig : Signature}
    (hinv : Inv c s) (hok : insert c s k sig = .ok s') : Inv c s' := by
  obtain ⟨-, -, hmiss, hs'⟩ := insert_ok_elim hok
  subst hs'
  have hlenH : (computeHashes c sig).length = c.b := computeHashes_length c sig
  have hnoK : ∀ db ∈ s.bands, ∀ e ∈ db, k ∉ e.2 :=
    not_mem_posting_of_no_record hinv hmiss
  refine ⟨?_, ?_, ?_, ?_, ?_, ?_, ?_, ?_⟩
  · dsimp only
    rw [length_updateBands]
    exact hinv.bandsLen
  · dsimp only
    exact nodup_dbPut hinv.keysND
  · dsimp only
    exact updateBands_forall _ (fun db => (db.map Prod.fst).Nodup)
      (fun db => (db.map Prod.fst).Nodup) (fun _ h => h)
      (fun _ _ h => nodup_dbPut h) _ _ hinv.bandKeysND
  · intro k' hs0 hget
    dsimp only at hget
    by_cases hk : k' = k
    · subst hk
      rw [dbGet_dbPut_self] at hget
      injection hget with h
      rw [← h]
      exact hlenH
    · rw [dbGet_dbPut_ne _ _ _ _ hk] at hget
      exact hinv.recLen k' hs0 hget
  · intro k' hs0 hget i d hd db' hdb'
    dsimp only at hget hdb'
    have hlt : i < s.bands.length := by
      have h2 := (List.getElem?_eq_some_iff.mp hdb').1
      rwa [length_updateBands] at h2
    have hdb0 : s.bands[i]? = some (s.bands[i]) := by simp [hlt]
    by_cases hk : k = k'
    · subst hk
      rw [dbGet_dbPut_self] at hget
      injection hget with hEq
      subst hEq
      rw [updateBands_get_some (insertBand k) _ s.bands i d (s.bands[i]) hd hdb0]
        at hdb'
      injection hdb' with h2
      refine ⟨((dbGet (s.bands[i]) d).getD []) ++ [k], ?_, by simp⟩
      rw [← h2]
      exact dbGet_insertBand_self k d (s.bands[i])
    · rw [dbGet_dbPut_ne _ _ _ _ (Ne.symm hk)] at hget
      obtain ⟨ks, hks, hkmem⟩ := hinv.forward k' hs0 hget i d hd (s.bands[i]) hdb0
      rcases hHi : (computeHashes c sig)[i]? with _ | dI
      · rw [updateBands_get_none (insertBand k) _ s.bands i hHi, hdb0] at hdb'
        injection hdb' with h2
        exact ⟨ks, h2 ▸ hks, hkmem⟩
      · rw [updateBands_get_some (insertBand k) _ s.bands i dI (s.bands[i]) hHi hdb0]
          at hdb'
        injection hdb' with h2
        by_cases hdd : d = dI
        · subst hdd
          refine ⟨ks ++ [k], ?_, by simp [hkmem]⟩
          rw [← h2]
          have h3 := dbGet_insertBand_self k d (s.bands[i])
          rw [hks] at h3
          simpa using h3
        · refine ⟨ks, ?_, hkmem⟩
          rw [← h2, dbGet_insertBand_ne k dI d (s.bands[i]) hdd]
          exact hks
  · intro i db' hdb' e he k'' hk''
    dsimp only at hdb' ⊢
    have hlt : i < s.bands.length := by
      have h2 := (List.getElem?_eq_some_iff.mp hdb').1
      rwa [length_updateBands] at h2
    have hdb0 : s.bands[i]? = some (s.bands[i]) := by simp [hlt]
    have hmem0 : s.bands[i] ∈ s.bands := List.getElem?_mem hdb0
    rcases hHi : (computeHashes c sig)[i]? with _ | dI
    · rw [updateBands_get_none (insertBand k) _ s.bands i hHi, hdb0] at hdb'
      injection hdb' with h2
      obtain ⟨hs1, hget1, hidx1⟩ :=
        hinv.backward i (s.bands[i]) hdb0 e (h2 ▸ he) k'' hk''
      have hne : k'' ≠ k := by
        intro hEq
        rw [hEq, hmiss] at hget1
        cases hget1
      exact ⟨hs1, by rw [dbGet_dbPut_ne _ _ _ _ hne]; exact hget1, hidx1⟩
    · rw [updateBands_get_some (insertBand k) _ s.bands i dI (s.bands[i]) hHi hdb0]
        at hdb'
      injection hdb' with h2
      rcases mem_dbPut_nodup (hinv.bandKeysND _ hmem0) (h2 ▸ he) with hnew | hold
      · -- `e` is the freshly written posting `(dI, old ++ [k])`
        rw [hnew] at hk'' ⊢
        rcases List.mem_append.mp hk'' with hin | hin
        · -- `k''` was already in the bucket before the insert
          rcases hks0 : dbGet (s.bands[i]) dI with _ | ks0
          · rw [hks0] at hin
            simp at hin
          · rw [hks0] at hin
            simp only [Option.getD_some] at hin
            obtain ⟨hs1, hget1, hidx1⟩ := hinv.backward i (s.bands[i]) hdb0
              (dI, ks0) (dbGet_some_mem hks0) k'' hin
            have hne : k'' ≠ k := by
              intro hEq
              rw [hEq, hmiss] at hget1
              cases hget1
            exact ⟨hs1, by rw [dbGet_dbPut_ne _ _ _ _ hne]; exact hget1, hidx1⟩
        · -- `k''` is the inserted key itself
          have : k'' = k := by simpa using hin
          subst this
          exact ⟨computeHashes c sig, dbGet_dbPut_self _ _ _, hHi⟩
      · obtain ⟨hs1, hget1, hidx1⟩ :=
          hinv.backward i (s.bands[i]) hdb0 e hold.1 k'' hk''
        have hne : k'' ≠ k := by
          intro hEq
          rw [hEq, hmiss] at hget1
          cases hget1
        exact ⟨hs1, by rw [dbGet_dbPut_ne _ _ _ _ hne]; exact hget1, hidx1⟩
  · dsimp only
    exact updateBands_forall _
      (fun db => (db.map Prod.fst).Nodup ∧ ∀ e ∈ db, e.2 ≠ [])
      (fun db => ∀ e ∈ db, e.2 ≠ [])
      (fun _ h => h.2)
      (fun d db h e he => by
        rcases mem_dbPut_nodup h.1 he with hnew | hold
        · rw [hnew]
          simp
        · exact h.2 e hold.1) _ _
      (fun db hdb => ⟨hinv.bandKeysND db hdb, hinv.noEmpty db hdb⟩)
  · dsimp only
    exact updateBands_forall _
      (fun db => (db.map Prod.fst).Nodup ∧ (∀ e ∈ db, e.2.Nodup) ∧
        ∀ e ∈ db, k ∉ e.2)
      (fun db => ∀ e ∈ db, e.2.Nodup)
      (fun _ h => h.2.1)
      (fun d db h e he => by
        rcases mem_dbPut_nodup h.1 he with hnew | hold
        · rw [hnew]
          rcases hks0 : dbGet db d with _ | ks0
          · simp
          · have h4 : (d, ks0) ∈ db := dbGet_some_mem hks0
            simp only [hks0, Option.getD_some]
            rw [List.nodup_append]
            exact ⟨h.2.1 _ h4, List.nodup_singleton k,
              fun a ha hb => by
                rw [List.mem_singleton.mp hb] at ha
                exact h.2.2 _ h4 ha⟩
        · exact h.2.1 e hold.1) _ _
      (fun db hdb => ⟨hinv.bandKeysND db hdb, hinv.postND db hdb,
        fun e he => hnoK db hdb e he⟩)

/-! ## `removeBand` characterization -/

theorem dbGet_removeBand_ne (key : Key) (H d : Digest) (db : Db Digest (List Key))
    (h : d ≠ H) : dbGet (removeBand key H db) d = dbGet db d := by
  unfold removeBand
  split
  · rfl
  · split
    · split
      · exact dbGet_dbDelete_ne _ _ _ h
      · exact dbGet_dbPut_ne _ _ _ _ h
    · rfl

theorem dbGet_removeBand_self_put (key : Key) (H : Digest) {db : Db Digest (List Key)}
    {ks : List Key} (hks : dbGet db H = some ks) (hmem : key ∈ ks)
    (hne : ks.erase key ≠ []) :
    dbGet (removeBand key H db) H = some (ks.erase key) := by
  unfold removeBand
  rw [hks]
  simp only [if_pos hmem, if_neg hne]
  exact dbGet_dbPut_self _ _ _

theorem dbGet_removeBand_self_del (key : Key) (H : Digest) {db : Db Digest (List Key)}
    {ks : List Key} (hks : dbGet db H = some ks) (hmem : key ∈ ks)
    (hnil : ks.erase key = []) :
    dbGet (removeBand key H db) H = none := by
  unfold removeBand
  rw [hks]
  simp only [if_pos hmem, if_pos hnil]
  exact dbGet_dbDelete_self _ _

theorem dbGet_removeBand_self_skip (key : Key) (H : Digest) {db : Db Digest (List Key)}
    {ks : List Key} (hks : dbGet db H = some ks) (hmem : key ∉ ks) :
    dbGet (removeBand key H db) H = some ks := by
  unfold removeBand
  rw [hks]
  simp only [if_neg hmem]
  exact hks

/-- Every entry of `removeBand key H db` is either an untouched entry of
`db` or the shrunk (non-empty) posting list written back under `H`. -/
theorem mem_removeBand {key : Key} {H : Digest} {db : Db Digest (List Key)}
    (hnd : (db.map Prod.fst).Nodup) {e : Digest × List Key}
    (he : e ∈ removeBand key H db) :
    e ∈ db ∨ ∃ ks : List Key, dbGet db H = some ks ∧ key ∈ ks ∧
      e = (H, ks.erase key) ∧ ks.erase key ≠ [] := by
  unfold removeBand at he
  split at he
  · exact Or.inl he
  next ks hks =>
    split at he
    next hkey =>
      split at he
      next hnil => exact Or.inl (mem_dbDelete he).1
      next hnil =>
        rcases mem_dbPut_nodup hnd he with h | h
        · exact Or.inr ⟨ks, hks, hkey, h, hnil⟩
        · exact Or.inl h.1
    · exact Or.inl he

theorem nodup_removeBand {key : Key} {H : Digest} {db : Db Digest (List Key)}
    (hnd : (db.map Prod.fst).Nodup) :
    ((removeBand key H db).map Prod.fst).Nodup := by
  unfold removeBand
  split
  · exact hnd
  · split
    · split
      · exact nodup_dbDelete hnd
      · exact nodup_dbPut hnd
    · exact hnd

/-- Invariant preservation by a successful `remove`. -/
theorem inv_remove {c : Config} {s s' : State} {k : Key}
    (hinv : Inv c s) (hok : remove c s k = .ok s') : Inv c s' := by
  obtain ⟨-, hs, hget, hs'⟩ := remove_ok_elim hok
  subst hs'
  have hlenhs : hs.length = c.b := hinv.recLen k hs hget
  refine ⟨?_, ?_, ?_, ?_, ?_, ?_, ?_, ?_⟩
  · dsimp only
    rw [length_updateBands]
    exact hinv.bandsLen
  · dsimp only
    exact nodup_dbDelete hinv.keysND
  · dsimp only
    exact updateBands_forall _ (fun db => (db.map Prod.fst).Nodup)
      (fun db => (db.map Prod.fst).Nodup) (fun _ h => h)
      (fun _ _ h => nodup_removeBand h) _ _ hinv.bandKeysND
  · intro k' hs0 hget0
    dsimp only at hget0
    by_cases hk : k' = k
    · subst hk
      rw [dbGet_dbDelete_self] at hget0
      cases hget0
    · rw [dbGet_dbDelete_ne _ _ _ hk] at hget0
      exact hinv.recLen k' hs0 hget0
  · intro k' hs0 hget0 i d hd db' hdb'
    dsimp only at hget0 hdb'
    have hk : k' ≠ k := by
      intro hEq
      rw [hEq, dbGet_dbDelete_self] at hget0
      cases hget0
    rw [dbGet_dbDelete_ne _ _ _ hk] at hget0
    have hlt : i < s.bands.length := by
      have h2 := (List.getElem?_eq_some_iff.mp hdb').1
      rwa [length_updateBands] at h2
    have hdb0 : s.bands[i]? = some (s.bands[i]) := by simp [hlt]
    have hmem0 : s.bands[i] ∈ s.bands := List.getElem?_mem hdb0
    obtain ⟨ks, hks, hkmem⟩ := hinv.forward k' hs0 hget0 i d hd (s.bands[i]) hdb0
    have hihs : i < hs.length := by
      rw [hlenhs, ← hinv.bandsLen]
      exact hlt
    have hdR : hs[i]? = some (hs[i]) := by simp [hihs]
    rw [updateBands_get_some (removeBand k) hs s.bands i (hs[i]) (s.bands[i]) hdR hdb0]
      at hdb'
    injection hdb' with h2
    by_cases hdd : d = hs[i]
    · -- the surviving key's digest coincides with the removed key's digest
      subst hdd
      by_cases hkk : k ∈ ks
      · have hksnd : ks.Nodup :=
          hinv.postND _ hmem0 (hs[i], ks) (dbGet_some_mem hks)
        have hmem2 : k' ∈ ks.erase k := by
          rw [List.Nodup.mem_erase_iff hksnd]
          exact ⟨hk, hkmem⟩
        have hne2 : ks.erase k ≠ [] := by
          intro hEq
          rw [hEq] at hmem2
          simp at hmem2
        exact ⟨ks.erase k,
          by rw [← h2, dbGet_removeBand_self_put k (hs[i]) hks hkk hne2], hmem2⟩
      · exact ⟨ks,
          by rw [← h2, dbGet_removeBand_self_skip k (hs[i]) hks hkk], hkmem⟩
    · exact ⟨ks,
        by rw [← h2, dbGet_removeBand_ne k (hs[i]) d (s.bands[i]) hdd]; exact hks,
        hkmem⟩
  · intro i db' hdb' e he k'' hk''
    dsimp only at hdb' ⊢
    have hlt : i < s.bands.length := by
      have h2 := (List.getElem?_eq_some_iff.mp hdb').1
      rwa [length_updateBands] at h2
    have hdb0 : s.bands[i]? = some (s.bands[i]) := by simp [hlt]
    have hmem0 : s.bands[i] ∈ s.bands := List.getElem?_mem hdb0
    have hihs : i < hs.length := by
      rw [hlenhs, ← hinv.bandsLen]
      exact hlt
    have hdR : hs[i]? = some (hs[i]) := by simp [hihs]
    rw [updateBands_get_some (removeBand k) hs s.bands i (hs[i]) (s.bands[i]) hdR hdb0]
      at hdb'
    injection hdb' with h2
    rcases mem_removeBand (hinv.bandKeysND _ hmem0) (h2 ▸ he) with hold | hnew
    · obtain ⟨hs1, hget1, hidx1⟩ :=
        hinv.backward i (s.bands[i]) hdb0 e hold k'' hk''
      have hne : k'' ≠ k := by
        intro hEq
        -- then `e` would be the bucket of the removed key, but `removeBand`
        -- never leaves the removed key behind
        have hkin0 : k ∈ e.2 := hEq ▸ hk''
        rw [hEq, hget] at hget1
        injection hget1 with h3
        have hidx2 : hs[i]? = some e.1 := by
          rw [h3]
          exact hidx1
        rw [hdR] at hidx2
        injection hidx2 with h4
        have h5 : dbGet (s.bands[i]) (hs[i]) = some e.2 := by
          rw [h4]
          exact dbGet_of_mem_nodup (hinv.bandKeysND _ hmem0)
            (by rw [Prod.mk.eta]; exact hold)
        have h6 : e ∈ removeBand k (hs[i]) (s.bands[i]) := h2 ▸ he
        have h8 : dbGet (removeBand k (hs[i]) (s.bands[i])) (hs[i]) = some e.2 := by
          have h8a : dbGet (removeBand k (hs[i]) (s.bands[i])) e.1 = some e.2 :=
            dbGet_of_mem_nodup (nodup_removeBand (hinv.bandKeysND _ hmem0))
              (by rw [Prod.mk.eta]; exact h6)
          rw [← h4] at h8a
          exact h8a
        have hksnd : e.2.Nodup := hinv.postND _ hmem0 e hold
        by_cases hnil : e.2.erase k = []
        · rw [dbGet_removeBand_self_del k (hs[i]) h5 hkin0 hnil] at h8
          cases h8
        · rw [dbGet_removeBand_self_put k (hs[i]) h5 hkin0 hnil] at h8
          injection h8 with h9
          rw [← h9] at hkin0
          exact (List.Nodup.mem_erase_iff hksnd).mp hkin0 |>.1 rfl
      exact ⟨hs1, by rw [dbGet_dbDelete_ne _ _ _ hne]; exact hget1, hidx1⟩
    · obtain ⟨ks2, hks2, _, hEq2, _⟩ := hnew
      have hksnd : ks2.Nodup :=
        hinv.postND _ hmem0 (hs[i], ks2) (dbGet_some_mem hks2)
      rw [hEq2] at hk''
      have hk2 := (List.Nodup.mem_erase_iff hksnd).mp hk''
      obtain ⟨hs1, hget1, hidx1⟩ := hinv.backward i (s.bands[i]) hdb0
        (hs[i], ks2) (dbGet_some_mem hks2) k'' hk2.2
      refine ⟨hs1, by rw [dbGet_dbDelete_ne _ _ _ hk2.1]; exact hget1, ?_⟩
      rw [hEq2]
      exact hidx1
  · dsimp only
    exact updateBands_forall _
      (fun db => (db.map Prod.fst).Nodup ∧ ∀ e ∈ db, e.2 ≠ [])
      (fun db => ∀ e ∈ db, e.2 ≠ [])
      (fun _ h => h.2)
      (fun d db h e he => by
        rcases mem_removeBand h.1 he with hold | hnew
        · exact h.2 e hold
        · obtain ⟨ks2, _, _, hEq2, hne2⟩ := hnew
          rw [hEq2]
          exact hne2) _ _
      (fun db hdb => ⟨hinv.bandKeysND db hdb, hinv.noEmpty db hdb⟩)
  · dsimp only
    exact updateBands_forall _
      (fun db => (db.map Prod.fst).Nodup ∧ ∀ e ∈ db, e.2.Nodup)
      (fun db => ∀ e ∈ db, e.2.Nodup)
      (fun _ h => h.2)
      (fun d db h e he => by
        rcases mem_removeBand h.1 he with hold | hnew
        · exact h.2 e hold
        · obtain ⟨ks2, hks2, _, hEq2, _⟩ := hnew
          rw [hEq2]
          exact List.Nodup.erase _ (h.2 (d, ks2) (dbGet_some_mem hks2))) _ _
      (fun db hdb => ⟨hinv.bandKeysND db hdb, hinv.postND db hdb⟩)

/-- Invariant preservation by `close` (the persisted collections are untouched). -/
theorem inv_close {c : Config} {s : State} (hinv : Inv c s) : Inv c (close s) :=
  ⟨hinv.bandsLen, hinv.keysND, hinv.bandKeysND, hinv.recLen, hinv.forward,
    hinv.backward, hinv.noEmpty, hinv.postND⟩

/-- Every reachable state satisfies the invariant. -/
theorem reachable_inv {c : Config} {s : State} (h : Reachable c s) : Inv c s := by
  induction h with
  | init => exact inv_init c
  | insert s s' k sig hr hok ih => exact inv_insert ih hok
  | remove s s' k hr hok ih => exact inv_remove ih hok
  | close s hr ih => exact inv_close ih

/-! ## Query characterization -/

/-- A key is a query candidate iff some band's posting list at the digest of
that band's slice of the signature contains it. -/
theorem mem_queryBands (c : Config) (sig : Signature) :
    ∀ (rs : List (Nat × Nat)) (dbs : List (Db Digest (List Key))) (x : Key),
      x ∈ queryBands c sig rs dbs ↔
        ∃ (i : Nat) (r : Nat × Nat) (db : Db Digest (List Key)) (ks : List Key),
          rs[i]? = some r ∧ dbs[i]? = some db ∧
          dbGet db (c.Hf (bandSlice sig r)) = some ks ∧ x ∈ ks
  | [], dbs, x => by
      simp [queryBands]
  | r :: rs, [], x => by
      simp only [queryBands, Finset.not_mem_empty, false_iff]
      rintro ⟨i, r', db, ks, h1, h2, h3, h4⟩
      simp at h2
  | r :: rs, db :: dbs, x => by
      simp only [queryBands, Finset.mem_union]
      constructor
      · intro h
        rcases h with h | h
        · rcases hget : dbGet db (c.Hf (bandSlice sig r)) with _ | ks
          · rw [hget] at h
            simp at h
          · rw [hget] at h
            simp only [List.mem_toFinset] at h
            exact ⟨0, r, db, ks, by simp, by simp, hget, h⟩
        · obtain ⟨i, r', db', ks, h1, h2, h3, h4⟩ :=
            (mem_queryBands c sig rs dbs x).mp h
          exact ⟨i + 1, r', db', ks, by simpa using h1, by simpa using h2, h3, h4⟩
      · rintro ⟨i, r', db', ks, h1, h2, h3, h4⟩
        cases i with
        | zero =>
          simp only [List.getElem?_cons_zero, Option.some.injEq] at h1 h2
          subst h1
          subst h2
          left
          rw [h3]
          simpa using h4
        | succ i =>
          rw [List.getElem?_cons_succ] at h1 h2
          right
          exact (mem_queryBands c sig rs dbs x).mpr ⟨i, r', db', ks, h1, h2, h3, h4⟩

/-- A `dbPut` result is never the empty collection. -/
theorem dbPut_ne_nil {K V : Type} [DecidableEq K] (db : Db K V) (k : K) (v : V) :
    dbPut db k v ≠ [] := by
  cases db with
  | nil => simp [dbPut]
  | cons e rest =>
    obtain ⟨k0, v0⟩ := e
    by_cases h0 : k0 = k
    · simp [dbPut, h0]
    · simp [dbPut, h0]

/-- After removing the only key that has a primary record, every posting
collection is empty. -/
theorem bands_empty_after_remove_last {c : Config} {s s' : State} {k : Key}
    (hinv : Inv c s)
    (honly : ∀ (k2 : Key) (hs2 : List Digest), dbGet s.keysDb k2 = some hs2 → k2 = k)
    (hok : remove c s k = .ok s') :
    ∀ db ∈ s'.bands, db = [] := by
  obtain ⟨-, hs, hget, hs'⟩ := remove_ok_elim hok
  subst hs'
  intro db' hdb'
  dsimp only at hdb'
  obtain ⟨i, hi⟩ := List.mem_iff_getElem?.mp hdb'
  have hlt : i < s.bands.length := by
    have h2 := (List.getElem?_eq_some_iff.mp hi).1
    rwa [length_updateBands] at h2
  have hdb0 : s.bands[i]? = some (s.bands[i]) := by simp [hlt]
  have hmem0 : s.bands[i] ∈ s.bands := List.getElem?_mem hdb0
  have hihs : i < hs.length := by
    rw [hinv.recLen k hs hget, ← hinv.bandsLen]
    exact hlt
  have hdR : hs[i]? = some (hs[i]) := by simp [hihs]
  rw [updateBands_get_some (removeBand k) hs s.bands i (hs[i]) (s.bands[i]) hdR hdb0]
    at hi
  injection hi with h2
  -- every entry of band i is exactly (hs[i], [k])
  have hent : ∀ e ∈ s.bands[i], e = (hs[i], [k]) := by
    intro e he
    have hne0 : e.2 ≠ [] := hinv.noEmpty _ hmem0 e he
    have hall : ∀ k1 ∈ e.2, k1 = k := by
      intro k1 hk1
      obtain ⟨hs2, hget2, -⟩ := hinv.backward i _ hdb0 e he k1 hk1
      exact honly k1 hs2 hget2
    have hnd2 : e.2.Nodup := hinv.postND _ hmem0 e he
    obtain ⟨k0, hk0⟩ := List.exists_mem_of_ne_nil e.2 hne0
    obtain ⟨hs1, hget1, hidx1⟩ := hinv.backward i _ hdb0 e he k0 hk0
    have hk0k : k0 = k := honly k0 hs1 hget1
    rw [hk0k, hget] at hget1
    injection hget1 with h3
    rw [← h3] at hidx1
    rw [hdR] at hidx1
    injection hidx1 with h4
    have he2 : e.2 = [k] := by
      cases e2 : e.2 with
      | nil => exact absurd e2 hne0
      | cons a t =>
        have ha : a = k := hall a (by rw [e2]; exact List.mem_cons_self _ _)
        have ht : t = [] := by
          cases t2 : t with
          | nil => rfl
          | cons b t2a =>
            have hbk : b = k := hall b (by rw [e2, t2]; simp)
            rw [e2, t2] at hnd2
            rw [List.nodup_cons] at hnd2
            exact absurd (by rw [ha, ← hbk]; simp) hnd2.1
        rw [ht, ha]
    calc e = (e.1, e.2) := Prod.mk.eta.symm
      _ = (hs[i], [k]) := by rw [← h4, he2]
  -- hence band i is empty or the single bucket of the removed key
  have hnd1 : ((s.bands[i]).map Prod.fst).Nodup := hinv.bandKeysND _ hmem0
  have hcases : s.bands[i] = [] ∨ s.bands[i] = [(hs[i], [k])] := by
    cases hb2 : s.bands[i] with
    | nil => exact Or.inl rfl
    | cons e0 t =>
      have he0 : e0 = (hs[i], [k]) := hent e0 (by rw [hb2]; simp)
      have ht : t = [] := by
        cases t2 : t with
        | nil => rfl
        | cons e1 t2a =>
          have he1 : e1 = (hs[i], [k]) := hent e1 (by rw [hb2, t2]; simp)
          rw [hb2, t2] at hnd1
          simp [he0, he1] at hnd1
      exact Or.inr (by rw [ht, he0])
  rcases hcases with hb2 | hb2
  · rw [← h2, hb2]
    simp [removeBand, dbGet]
  · rw [← h2, hb2]
    simp [removeBand, dbGet, dbDelete]

/-! ## Concrete fixture (mirrors the repository's small test scenario) -/

/-- A small concrete configuration: `h = 4`, two bands of two rows each,
with an arbitrary concrete digest function. -/
def exampleConfig : Config :=
  { h := 4
    hashranges := [(0, 2), (2, 4)]
    Hf := fun l => l.foldl (fun a x => a * 31 + x) 7 }

/-- The index state after inserting key `10` with signature `[1, 2, 3, 4]`
into a fresh index (digests `Hf [1,2] = 6760`, `Hf [3,4] = 6824`). -/
def exampleState1 : State :=
  { keysDb := [(10, [6760, 6824])]
    bands := [[(6760, [10])], [(6824, [10])]]
    closed := false }

/-- The index state after removing key `10` again: all collections empty. -/
def exampleState2 : State :=
  { keysDb := []
    bands := [[], []]
    closed := false }

theorem exampleInsert_ok :
    insert exampleConfig (initState exampleConfig) 10 [1, 2, 3, 4] =
      .ok exampleState1 := by rfl

theorem exampleRemove_ok :
    remove exampleConfig exampleState1 10 = .ok exampleState2 := by rfl

theorem exampleState1_reachable : Reachable exampleConfig exampleState1 :=
  Reachable.insert _ _ _ _ Reachable.init exampleInsert_ok

theorem exampleOnly10 (k3 : Key) (hs3 : List Digest)
    (h : dbGet exampleState1.keysDb k3 = some hs3) : k3 = 10 := by
  by_cases h10 : (10 : Nat) = k3
  · exact h10.symm
  · simp [exampleState1, dbGet, h10] at h

/-! ## The claims -/

/-- **C1** (invariants): after every completed operation, a key has a
primary record iff, for every band `i`, the key appears in the posting
list stored under digest `PrimaryRecord[k][i]` in band collection `i`.
(The right-to-left direction is immediate because naming
`PrimaryRecord[k][i]` presupposes the record exists.) -/
theorem claim1_primary_iff_postings {c : Config} {s : State}
    (h : Reachable c s) (k : Key) :
    (dbGet s.keysDb k).isSome = true ↔
      ∃ hs : List Digest, dbGet s.keysDb k = some hs ∧ hs.length = c.b ∧
        ∀ i < c.b, ∃ (d : Digest) (db : Db Digest (List Key)) (ks : List Key),
          hs[i]? = some d ∧ s.bands[i]? = some db ∧
          dbGet db d = some ks ∧ k ∈ ks := by
  have hinv := reachable_inv h
  constructor
  · intro hsome
    obtain ⟨hs, hget⟩ := Option.isSome_iff_exists.mp hsome
    refine ⟨hs, hget, hinv.recLen k hs hget, ?_⟩
    intro i hi
    have hihs : i < hs.length := by rw [hinv.recLen k hs hget]; exact hi
    have hib : i < s.bands.length := by rw [hinv.bandsLen]; exact hi
    have hd : hs[i]? = some (hs[i]) := by simp [hihs]
    have hdb : s.bands[i]? = some (s.bands[i]) := by simp [hib]
    obtain ⟨ks, hks, hmem⟩ := hinv.forward k hs hget i (hs[i]) hd (s.bands[i]) hdb
    exact ⟨hs[i], s.bands[i], ks, hd, hdb, hks, hmem⟩
  · rintro ⟨hs, hget, -, -⟩
    rw [hget]
    rfl

/-- Witness for C1 at a concrete reachable state. -/
theorem claim1_witness :
    (dbGet exampleState1.keysDb 10).isSome = true ↔
      ∃ hs : List Digest, dbGet exampleState1.keysDb 10 = some hs ∧
        hs.length = exampleConfig.b ∧
        ∀ i < exampleConfig.b,
          ∃ (d : Digest) (db : Db Digest (List Key)) (ks : List Key),
            hs[i]? = some d ∧ exampleState1.bands[i]? = some db ∧
            dbGet db d = some ks ∧ 10 ∈ ks :=
  claim1_primary_iff_postings exampleState1_reachable 10

/-- **C2** (round trip): if `insert(k, s)` succeeds then `contains(k)` is
true and `query(s)` returns a set containing `k` (stated for a
well-formed index with at least one band, as constructed). -/
theorem claim2_insert_roundtrip {c : Config} {s s' : State} {k : Key}
    {sig : Signature} (hb : 0 < c.b) (hlen : s.bands.length = c.b)
    (hok : insert c s k sig = .ok s') :
    contains s' k = .ok true ∧
      ∃ res : Finset Key, query c s' sig = .ok res ∧ k ∈ res := by
  obtain ⟨hsig, hclosed, hmiss, hs'⟩ := insert_ok_elim hok
  subst hs'
  constructor
  · simp [contains, hclosed, dbGet_dbPut_self]
  · refine ⟨queryBands c sig c.hashranges
      (updateBands (insertBand k) (computeHashes c sig) s.bands), ?_, ?_⟩
    · simp [query, hsig, hclosed]
    · rw [mem_queryBands]
      have hb2 : 0 < c.hashranges.length := hb
      have hr0 : c.hashranges[0]? = some (c.hashranges[0]) := by simp [hb2]
      have hlt1 : 0 < s.bands.length := by rw [hlen]; exact hb
      have hdb0 : s.bands[0]? = some (s.bands[0]) := by simp [hlt1]
      have hH0 : (computeHashes c sig)[0]? =
          some (c.Hf (bandSlice sig (c.hashranges[0]))) := by
        unfold computeHashes
        rw [List.getElem?_map, hr0]
        rfl
      have hband := updateBands_get_some (insertBand k) (computeHashes c sig)
        s.bands 0 (c.Hf (bandSlice sig (c.hashranges[0]))) (s.bands[0]) hH0 hdb0
      exact ⟨0, c.hashranges[0],
        insertBand k (c.Hf (bandSlice sig (c.hashranges[0]))) (s.bands[0]),
        ((dbGet (s.bands[0]) (c.Hf (bandSlice sig (c.hashranges[0])))).getD []) ++ [k],
        hr0, hband, dbGet_insertBand_self k _ (s.bands[0]), by simp⟩

/-- Witness for C2 at a concrete successful insert. -/
theorem claim2_witness :
    contains exampleState1 10 = .ok true ∧
      ∃ res : Finset Key,
        query exampleConfig exampleState1 [1, 2, 3, 4] = .ok res ∧ 10 ∈ res :=
  claim2_insert_roundtrip (by decide) (by decide) exampleInsert_ok

/-- **C3** (contains): modelled from the spec (`contains` is inherited from
the external `datasketch` parent class, not defined in `src/`): on an open
index, `contains(k)` returns exactly whether the primary record for `k` is
present; it returns no successor state, so it mutates no collection. -/
theorem claim3_contains_spec (s : State) (k : Key) (hopen : s.closed = false) :
    contains s k = .ok ((dbGet s.keysDb k).isSome) := by
  simp [contains, hopen]

/-- Witness for C3. -/
theorem claim3_witness :
    contains exampleState1 10 = .ok ((dbGet exampleState1.keysDb 10).isSome) :=
  claim3_contains_spec exampleState1 10 rfl

/-- **C4** (error handling): each rejected operation raises the documented
error, and the persisted state (all `b + 1` collections) is unchanged —
the error branches are taken before any write, and the store aborts the
transaction (`execInsert`/`execRemove` make this explicit). -/
theorem claim4_rejected_ops_unchanged (c : Config) (s : State)
    (k1 : Key) (sig1 : Signature) (k2 : Key) (sig2 : Signature) (k3 : Key)
    (hopen : s.closed = false)
    (hlen1 : sig1.length ≠ c.h)
    (hlen2 : sig2.length = c.h) (hdup : (dbGet s.keysDb k2).isSome = true)
    (hmiss : dbGet s.keysDb k3 = none) :
    insert c s k1 sig1 = .error .signatureLengthMismatch ∧
    query c s sig1 = .error .signatureLengthMismatch ∧
    execInsert c s k1 sig1 = s ∧
    insert c s k2 sig2 = .error .duplicateKey ∧
    execInsert c s k2 sig2 = s ∧
    remove c s k3 = .error .unknownKey ∧
    execRemove c s k3 = s := by
  have h1 : insert c s k1 sig1 = .error .signatureLengthMismatch := by
    simp [insert, hlen1]
  have h2 : insert c s k2 sig2 = .error .duplicateKey := by
    simp [insert, hlen2, hopen, hdup]
  have h3 : remove c s k3 = .error .unknownKey := by
    simp [remove, hopen, hmiss]
  refine ⟨h1, by simp [query, hlen1], by simp [execInsert, h1],
    h2, by simp [execInsert, h2], h3, by simp [execRemove, h3]⟩

/-- Witness for C4 at a concrete state: wrong-length insert/query with
`[9]`, duplicate insert of key `10`, and removal of the absent key `11`,
all leaving the collections unchanged. -/
theorem claim4_witness :
    insert exampleConfig exampleState1 10 [9] = .error .signatureLengthMismatch ∧
    query exampleConfig exampleState1 [9] = .error .signatureLengthMismatch ∧
    execInsert exampleConfig exampleState1 10 [9] = exampleState1 ∧
    insert exampleConfig exampleState1 10 [1, 2, 3, 4] = .error .duplicateKey ∧
    execInsert exampleConfig exampleState1 10 [1, 2, 3, 4] = exampleState1 ∧
    remove exampleConfig exampleState1 11 = .error .unknownKey ∧
    execRemove exampleConfig exampleState1 11 = exampleState1 :=
  claim4_rejected_ops_unchanged exampleConfig exampleState1 10 [9] 10 [1, 2, 3, 4] 11
    rfl (by decide) (by decide) (by decide) (by decide)

/-- **C5** (query): a successful `query(s)` returns exactly the
deduplicated union (a set), over the `b` bands, of the posting lists at
each band's digest of `s`; an absent posting entry contributes nothing and
is not an error.  `query` returns no successor state, so it never mutates
any collection. -/
theorem claim5_query_characterization {c : Config} {s : State}
    {sig : Signature} {res : Finset Key}
    (hq : query c s sig = .ok res) (x : Key) :
    x ∈ res ↔
      ∃ (i : Nat) (r : Nat × Nat) (db : Db Digest (List Key)) (ks : List Key),
        c.hashranges[i]? = some r ∧ s.bands[i]? = some db ∧
        dbGet db (c.Hf (bandSlice sig r)) = some ks ∧ x ∈ ks := by
  unfold query at hq
  split at hq
  · exact absurd hq (by simp)
  · split at hq
    · exact absurd hq (by simp)
    · injection hq with h
      rw [← h]
      exact mem_queryBands c sig c.hashranges s.bands x

/-- Witness for C5 at a concrete query. -/
theorem claim5_witness :
    10 ∈ queryBands exampleConfig [1, 2, 3, 4] exampleConfig.hashranges
        exampleState1.bands ↔
      ∃ (i : Nat) (r : Nat × Nat) (db : Db Digest (List Key)) (ks : List Key),
        exampleConfig.hashranges[i]? = some r ∧
        exampleState1.bands[i]? = some db ∧
        dbGet db (exampleConfig.Hf (bandSlice [1, 2, 3, 4] r)) = some ks ∧
        10 ∈ ks :=
  claim5_query_characterization
    (show query exampleConfig exampleState1 [1, 2, 3, 4] =
      .ok (queryBands exampleConfig [1, 2, 3, 4] exampleConfig.hashranges
        exampleState1.bands) from rfl) 10

/-- **C6** (remove is complete): after a successful `remove(k)`,
`contains(k)` is false and a second `remove(k)` fails with `UnknownKey`. -/
theorem claim6_remove_complete {c : Config} {s s' : State} {k : Key}
    (hok : remove c s k = .ok s') :
    contains s' k = .ok false ∧ remove c s' k = .error .unknownKey := by
  obtain ⟨hclosed, hs, hget, hs'⟩ := remove_ok_elim hok
  subst hs'
  constructor
  · simp [contains, hclosed, dbGet_dbDelete_self]
  · simp [remove, hclosed, dbGet_dbDelete_self]

/-- Witness for C6 at a concrete successful remove. -/
theorem claim6_witness :
    contains exampleState2 10 = .ok false ∧
      remove exampleConfig exampleState2 10 = .error .unknownKey :=
  claim6_remove_complete exampleRemove_ok

/-- **C7** (posting cleanup invariant): in every reachable state, no
persisted posting entry has an empty key sequence — in particular, a
bucket whose last key is removed is deleted outright (absent from
storage), since an empty-but-present bucket would violate this. -/
theorem claim7_no_empty_postings {c : Config} {s : State}
    (h : Reachable c s) : ∀ db ∈ s.bands, ∀ e ∈ db, e.2 ≠ [] :=
  (reachable_inv h).noEmpty

/-- Witness for C7, fully instantiated at a concrete reachable state. -/
theorem claim7_witness :
    ((6760 : Digest), ([10] : List Key)).2 ≠ [] :=
  claim7_no_empty_postings exampleState1_reachable
    [(6760, [10])] (by decide) (6760, [10]) (by decide)

/-- Helper: a non-empty list has `isEmpty = false`. -/
theorem isEmpty_eq_false_of_ne_nil {α : Type} {l : List α} (h : l ≠ []) :
    l.isEmpty = false := by
  cases l with
  | nil => exact absurd rfl h
  | cons a t => rfl

/-- **C8** (empty-index property): `is_empty()` is true iff every posting
collection has zero entries; a fresh index is empty; after any successful
insert it is not; after removing the only present key it is empty again. -/
theorem claim8_is_empty (c : Config) (s s1 s2 s3 : State) (k k2 : Key)
    (sig : Signature) (hb : 0 < c.b) (hopen : s.closed = false)
    (hlen : s.bands.length = c.b) (hins : insert c s k sig = .ok s1)
    (hreach : Reachable c s2)
    (honly : ∀ (k3 : Key) (hs3 : List Digest),
      dbGet s2.keysDb k3 = some hs3 → k3 = k2)
    (hrem : remove c s2 k2 = .ok s3) :
    is_empty (initState c) = .ok true ∧
    (is_empty s = .ok true ↔ ∀ db ∈ s.bands, db = []) ∧
    is_empty s1 = .ok false ∧
    is_empty s3 = .ok true := by
  refine ⟨?_, ?_, ?_, ?_⟩
  · simp only [is_empty, initState, Bool.false_eq_true, if_false,
      Except.ok.injEq, List.all_eq_true]
    intro db hdb
    rw [List.eq_of_mem_replicate hdb]
    rfl
  · simp [is_empty, hopen, List.all_eq_true]
  · obtain ⟨hsig, hclosed, hmiss, hs1⟩ := insert_ok_elim hins
    subst hs1
    have hlt0 : 0 < (computeHashes c sig).length := by
      rw [computeHashes_length]
      exact hb
    have hH0 : (computeHashes c sig)[0]? = some ((computeHashes c sig)[0]) := by
      simp [hlt0]
    have hlt1 : 0 < s.bands.length := by rw [hlen]; exact hb
    have hdb0 : s.bands[0]? = some (s.bands[0]) := by simp [hlt1]
    have hband := updateBands_get_some (insertBand k) (computeHashes c sig)
      s.bands 0 ((computeHashes c sig)[0]) (s.bands[0]) hH0 hdb0
    simp only [is_empty, hclosed, Bool.false_eq_true, if_false, Except.ok.injEq]
    rw [List.all_eq_false]
    refine ⟨insertBand k ((computeHashes c sig)[0]) (s.bands[0]),
      List.getElem?_mem hband, ?_⟩
    unfold insertBand
    rw [isEmpty_eq_false_of_ne_nil (dbPut_ne_nil _ _ _)]
    simp
  · have hempty := bands_empty_after_remove_last (reachable_inv hreach) honly hrem
    obtain ⟨hclosed2, hs, hget2, hs3⟩ := remove_ok_elim hrem
    have hcl : s3.closed = false := by rw [hs3]; exact hclosed2
    simp only [is_empty, hcl, Bool.false_eq_true, if_false, Except.ok.injEq,
      List.all_eq_true]
    intro db hdb
    rw [hempty db hdb]
    rfl

/-- Witness for C8: fresh index, insert of key `11` into the index
holding only key `10`, and removal of the only key `10`. -/
theorem claim8_witness :
    is_empty (initState exampleConfig) = .ok true ∧
    (is_empty exampleState1 = .ok true ↔ ∀ db ∈ exampleState1.bands, db = []) ∧
    is_empty (execInsert exampleConfig exampleState1 11 [5, 6, 7, 8]) = .ok false ∧
    is_empty exampleState2 = .ok true :=
  claim8_is_empty exampleConfig exampleState1
    (execInsert exampleConfig exampleState1 11 [5, 6, 7, 8])
    exampleState1 exampleState2 11 10 [5, 6, 7, 8]
    (by decide) rfl (by decide) rfl exampleState1_reachable exampleOnly10
    exampleRemove_ok

/-- **C9, counterexample to the claim as stated**: on a closed index,
`insert` (and `query`) with a wrong-length signature fails with
`SignatureLengthMismatch`, not `ClosedIndex` — in the source the length
validation precedes the `env.begin` call that would raise the
closed-environment error. -/
theorem claim9_counterexample :
    (close (initState exampleConfig)).closed = true ∧
    insert exampleConfig (close (initState exampleConfig)) 0 [] =
      .error .signatureLengthMismatch ∧
    Err.signatureLengthMismatch ≠ Err.closedIndex := by
  refine ⟨rfl, rfl, by decide⟩

/-- **C9, amended** (closed state): after `close()`, no public operation
ever succeeds and the closed state is terminal; every operation fails with
`ClosedIndex`, except that `insert`/`query` called with a signature of
length ≠ h fail with `SignatureLengthMismatch` (their length validation
runs before the store is touched). -/
theorem claim9_closed_terminal (c : Config) (s : State) (k : Key)
    (sig : Signature) (hc : s.closed = true) :
    (sig.length = c.h → insert c s k sig = .error .closedIndex) ∧
    (sig.length ≠ c.h → insert c s k sig = .error .signatureLengthMismatch) ∧
    (sig.length = c.h → query c s sig = .error .closedIndex) ∧
    (sig.length ≠ c.h → query c s sig = .error .signatureLengthMismatch) ∧
    remove c s k = .error .closedIndex ∧
    contains s k = .error .closedIndex ∧
    is_empty s = .error .closedIndex ∧
    execInsert c s k sig = s ∧ execRemove c s k = s ∧
    (close s).closed = true := by
  refine ⟨?_, ?_, ?_, ?_, ?_, ?_, ?_, ?_, ?_, rfl⟩
  · intro hl
    simp [insert, hl, hc]
  · intro hl
    simp [insert, hl]
  · intro hl
    simp [query, hl, hc]
  · intro hl
    simp [query, hl]
  · simp [remove, hc]
  · simp [contains, hc]
  · simp [is_empty, hc]
  · unfold execInsert
    by_cases hl : sig.length = c.h
    · simp [insert, hl, hc]
    · simp [insert, hl]
  · unfold execRemove
    simp [remove, hc]

/-- Witness for C9 (amended) on a concretely closed index. -/
theorem claim9_witness :
    (([1, 2, 3, 4] : Signature).length = exampleConfig.h →
      insert exampleConfig (close exampleState1) 11 [1, 2, 3, 4] =
        .error .closedIndex) ∧
    (([1, 2, 3, 4] : Signature).length ≠ exampleConfig.h →
      insert exampleConfig (close exampleState1) 11 [1, 2, 3, 4] =
        .error .signatureLengthMismatch) ∧
    (([1, 2, 3, 4] : Signature).length = exampleConfig.h →
      query exampleConfig (close exampleState1) [1, 2, 3, 4] =
        .error .closedIndex) ∧
    (([1, 2, 3, 4] : Signature).length ≠ exampleConfig.h →
      query exampleConfig (close exampleState1) [1, 2, 3, 4] =
        .error .signatureLengthMismatch) ∧
    remove exampleConfig (close exampleState1) 11 = .error .closedIndex ∧
    contains (close exampleState1) 11 = .error .closedIndex ∧
    is_empty (close exampleState1) = .error .closedIndex ∧
    execInsert exampleConfig (close exampleState1) 11 [1, 2, 3, 4] =
      close exampleState1 ∧
    execRemove exampleConfig (close exampleState1) 11 = close exampleState1 ∧
    (close (close exampleState1)).closed = true :=
  claim9_closed_terminal exampleConfig (close exampleState1) 11 [1, 2, 3, 4] rfl

/-- **C10** (no duplicate in a posting list): in every reachable state, no
key occurs more than once in any single posting list — `insert` appends a
key to a band's posting list only after checking it has no primary record,
so a key already present in a bucket is never appended again. -/
theorem claim10_posting_nodup {c : Config} {s : State}
    (h : Reachable c s) : ∀ db ∈ s.bands, ∀ e ∈ db, e.2.Nodup :=
  (reachable_inv h).postND

/-- Witness for C10, fully instantiated at a concrete reachable state. -/
theorem claim10_witness :
    ((6824 : Digest), ([10] : List Key)).2.Nodup :=
  claim10_posting_nodup exampleState1_reachable
    [(6824, [10])] (by decide) (6824, [10]) (by decide)

end DatasketchLMDB
